import Mathlib

/-!
# Verification of the offline-radio native audio pipeline

Shallow embedding of `android/app/src/main/cpp/audio_processor.cpp` and of
the components the design specification reconstructs around it (the
lock-free frame relay, the compression worker and the stop policy).

The source file contains one implemented function, the driver callback
`AudioEngine::onAudioReady`, which casts the raw buffer to `float*`, calls
`processAudio(data, numFrames)` once and returns
`oboe::DataCallbackResult::Continue`.  The functions `processAudio`,
`compressAudio` and `decompressAudio` are declared with no bodies; the
components they belong to are modelled here from the specification, each
such definition carrying a doc comment starting `Modelled from the spec:`.
Samples are modelled as 16-bit quantized PCM values (natural numbers below
65536) and compressed blocks as byte sequences (natural numbers below 256).
-/

namespace AudioProcessor

/-- The continue/stop signal returned to the driver
(`oboe::DataCallbackResult`). -/
inductive DataCallbackResult where
  | Continue
  | Stop
deriving DecidableEq, Repr

/-- A raw driver buffer (the `void *audioData` argument): the underlying
sample data that the cast `static_cast<float*>(audioData)` exposes. -/
structure RawBuffer where
  samples : List Nat
deriving DecidableEq, Repr

/-- The reinterpreting cast `static_cast<float*>(audioData)` applied by the
callback before calling `processAudio`. -/
def castFloat (b : RawBuffer) : List Nat := b.samples

/-- Modelled from the spec: the Lock-Free Frame Relay (spec section 4.2), a
bounded single-producer/single-consumer queue of frame buffers; it is
absent from the source, which only declares the callback skeleton.  The
buffer holds frames oldest first; capacity is fixed at construction. -/
structure Relay where
  capacity : Nat
  buf : List (List Nat)
deriving DecidableEq, Repr

/-- Modelled from the spec: the relay operation `tryPush(buffer) -> bool`.
When the relay is below capacity the frame is enqueued at the back and the
call reports `true`; at capacity the frame is rejected (`false`, the
drop-newest overflow policy) and the relay is unchanged.  The operation is
a total function: it never blocks. -/
def tryPush (r : Relay) (frame : List Nat) : Relay × Bool :=
  if r.buf.length < r.capacity then ({ r with buf := r.buf ++ [frame] }, true)
  else (r, false)

/-- Modelled from the spec: the relay operation `tryPop() -> optional<buffer>`.
Dequeues the oldest frame when the relay is non-empty and returns `none`
otherwise.  The operation is a total function: it never blocks. -/
def tryPop (r : Relay) : Relay × Option (List Nat) :=
  match r.buf with
  | [] => (r, none)
  | f :: rest => ({ r with buf := rest }, some f)

/-- Observable actions of the real-time callback path. -/
inductive Action where
  | pushFrame (frame : List Nat) (accepted : Bool)
  | signalWorker
deriving DecidableEq, Repr

/-- A record of one call to `processAudio`, built at the call site in
`onAudioReady`: the cast data pointer and the frame count actually passed. -/
structure CallRecord where
  data : List Nat
  frames : Nat
deriving DecidableEq, Repr

/-- The error kind of the decode path (spec sections 4.3 and 7). -/
inductive DecodeError where
  | truncated
  | malformed
deriving DecidableEq, Repr

/-- Modelled from the spec: `processAudio` is declared in the source with no
body; per spec section 4.1 the adapter's only permitted action is to copy
the incoming buffer into a pre-allocated relay slot and signal the worker.
The returned action list is its observable behaviour. -/
def processAudio (r : Relay) (data : List Nat) (frames : Nat) :
    Relay × List Action :=
  ((tryPush r data).1,
   [Action.pushFrame data (tryPush r data).2, Action.signalWorker])

/-- The driver callback `AudioEngine::onAudioReady`, embedded with an
explicit error channel (`Except DecodeError`) so that synchronous error
propagation is expressible, an explicit trace of the calls it makes, the
actions performed, and the relay state it threads.  Faithful to the source:
it casts `audioData` to `float*`, calls `processAudio(data, numFrames)`
exactly once, and returns `Continue`; the `audioStream` argument is unused. -/
def onAudioReady (audioStream : Nat) (audioData : RawBuffer) (numFrames : Nat)
    (r : Relay) :
    Except DecodeError (Relay × List CallRecord × List Action × DataCallbackResult) :=
  let res := processAudio r (castFloat audioData) numFrames
  Except.ok (res.1, [⟨castFloat audioData, numFrames⟩], res.2,
             DataCallbackResult.Continue)

/-- Modelled from the spec: `compressAudio` is declared in the source with no
body and no codec is chosen; spec section 8 requires the round-trip policy
to be fixed before testing, and the lossless policy is fixed here: each
16-bit PCM sample is serialized into two bytes, low byte first. -/
def compressAudio : List Nat → List Nat
  | [] => []
  | s :: rest => s % 256 :: (s / 256) % 256 :: compressAudio rest

/-- Modelled from the spec: `decompressAudio` is declared in the source with
no body; per spec section 4.3 it consumes a compressed block and
reconstructs the frame buffer, failing with a `DecodeError` when the input
is truncated (odd byte count) or malformed (a value that is not a byte). -/
def decompressAudio : List Nat → Except DecodeError (List Nat)
  | [] => Except.ok []
  | [_] => Except.error DecodeError.truncated
  | lo :: hi :: rest =>
    if lo < 256 ∧ hi < 256 then
      (decompressAudio rest).map (fun xs => (lo + 256 * hi) :: xs)
    else
      Except.error DecodeError.malformed

/-- One interleaved event of the two-thread execution: the driver delivering
a frame to the callback (which pushes it), or the worker popping. -/
inductive RelayOp where
  | push (frame : List Nat)
  | pop
deriving DecidableEq, Repr

/-- Global execution state of a relay run: the relay itself plus the history
of frames accepted by `tryPush`, frames dropped by the overflow policy, and
frames popped by the worker, each in event order. -/
structure RunState where
  relay : Relay
  accepted : List (List Nat)
  dropped : List (List Nat)
  popped : List (List Nat)
deriving DecidableEq, Repr

/-- One execution step of the interleaved producer/consumer run. -/
def step (s : RunState) : RelayOp → RunState
  | RelayOp.push f =>
    let p := tryPush s.relay f
    if p.2 then { s with relay := p.1, accepted := s.accepted ++ [f] }
    else { s with relay := p.1, dropped := s.dropped ++ [f] }
  | RelayOp.pop =>
    match tryPop s.relay with
    | (r', some f) => { s with relay := r', popped := s.popped ++ [f] }
    | (r', none) => { s with relay := r' }

/-- Initial run state: an empty relay of the given capacity, empty histories. -/
def initState (cap : Nat) : RunState :=
  ⟨⟨cap, []⟩, [], [], []⟩

/-- Execute a whole interleaving of relay operations. -/
def run (cap : Nat) (ops : List RelayOp) : RunState :=
  ops.foldl step (initState cap)

/-- The frames the driver delivered during a run, in delivery order. -/
def delivered (ops : List RelayOp) : List (List Nat) :=
  ops.filterMap fun op =>
    match op with
    | RelayOp.push f => some f
    | RelayOp.pop => none

/-- Modelled from the spec: the stream-stop policy (spec section 5 requires a
deterministic drain-or-discard policy; the drain policy is fixed here).
Stopping pops the relay repeatedly, delivering every in-flight frame to the
worker. -/
def drainSteps : Nat → Relay → Relay × List (List Nat)
  | 0, r => (r, [])
  | n + 1, r =>
    match tryPop r with
    | (r', none) => (r', [])
    | (r', some f) =>
      let res := drainSteps n r'
      (res.1, f :: res.2)

/-- Modelled from the spec: stopping a stream drains all in-flight relay
entries to the worker. -/
def stopStream (r : Relay) : Relay × List (List Nat) :=
  drainSteps r.buf.length r

/-!
## Helper lemmas (shared)
-/

theorem tryPush_of_lt (r : Relay) (f : List Nat) (h : r.buf.length < r.capacity) :
    tryPush r f = ({ r with buf := r.buf ++ [f] }, true) := by
  simp [tryPush, h]

theorem tryPush_of_ge (r : Relay) (f : List Nat) (h : ¬ r.buf.length < r.capacity) :
    tryPush r f = (r, false) := by
  simp [tryPush, h]

theorem step_preserves_queue_eq (s : RunState) (op : RelayOp)
    (h : s.popped ++ s.relay.buf = s.accepted) :
    (step s op).popped ++ (step s op).relay.buf = (step s op).accepted := by
  cases op with
  | push f =>
    by_cases hc : s.relay.buf.length < s.relay.capacity
    · simp [step, tryPush_of_lt s.relay f hc, ← h, List.append_assoc]
    · simp [step, tryPush_of_ge s.relay f hc, h]
  | pop =>
    cases hb : s.relay.buf with
    | nil => simp [step, tryPop, hb, hb ▸ h]
    | cons f rest =>
      have h2 : s.popped ++ (f :: rest) = s.accepted := hb ▸ h
      simp [step, tryPop, hb, ← h2, List.append_assoc]

theorem foldl_preserves_queue_eq (ops : List RelayOp) :
    ∀ s : RunState, s.popped ++ s.relay.buf = s.accepted →
      (ops.foldl step s).popped ++ (ops.foldl step s).relay.buf =
        (ops.foldl step s).accepted := by
  induction ops with
  | nil => intro s h; simpa using h
  | cons op ops ih =>
    intro s h
    simpa using ih (step s op) (step_preserves_queue_eq s op h)

theorem step_pop_accepted (s : RunState) : (step s RelayOp.pop).accepted = s.accepted := by
  cases hb : s.relay.buf with
  | nil => simp [step, tryPop, hb]
  | cons f rest => simp [step, tryPop, hb]

theorem foldl_accepted_sublist (ops : List RelayOp) :
    ∀ s : RunState,
      List.Sublist (ops.foldl step s).accepted (s.accepted ++ delivered ops) := by
  induction ops with
  | nil => intro s; simp [delivered]
  | cons op ops ih =>
    intro s
    refine List.Sublist.trans (ih (step s op)) ?_
    cases op with
    | push f =>
      by_cases hc : s.relay.buf.length < s.relay.capacity
      · simp [step, tryPush_of_lt s.relay f hc, delivered, List.append_assoc]
      · simp only [step, tryPush_of_ge s.relay f hc, delivered, List.filterMap_cons]
        exact List.Sublist.append_left (List.sublist_cons_self f _) s.accepted
    | pop =>
      simp [step_pop_accepted, delivered]

theorem except_map_error {α β γ : Type} (f : α → β) (x : Except γ α) (e : γ) :
    x.map f = Except.error e ↔ x = Except.error e := by
  cases x <;> simp [Except.map]

theorem decompress_error_iff (b : List Nat) :
    (∃ e, decompressAudio b = Except.error e) ↔
      (b.length % 2 = 1 ∨ ∃ x ∈ b, 256 ≤ x) := by
  induction b using decompressAudio.induct with
  | case1 => simp [decompressAudio]
  | case2 a => simp [decompressAudio]
  | case3 lo hi rest h ih =>
    obtain ⟨hlo, hhi⟩ := h
    simp only [decompressAudio, if_pos (And.intro hlo hhi), except_map_error]
    rw [ih]
    constructor
    · rintro (hl | ⟨x, hxm, hxb⟩)
      · left; simp; omega
      · right; exact ⟨x, by simp [hxm], hxb⟩
    · rintro (hl | ⟨x, hxm, hxb⟩)
      · left; simp at hl; omega
      · simp only [List.mem_cons] at hxm
        rcases hxm with rfl | rfl | h3
        · omega
        · omega
        · right; exact ⟨x, h3, hxb⟩
  | case4 lo hi rest h =>
    simp only [decompressAudio, if_neg h]
    constructor
    · intro _
      right
      rcases (by omega : 256 ≤ lo ∨ 256 ≤ hi) with h1 | h1
      · exact ⟨lo, by simp, h1⟩
      · exact ⟨hi, by simp, h1⟩
    · intro _; exact ⟨_, rfl⟩

theorem drainSteps_drains (l : List (List Nat)) (cap : Nat) :
    drainSteps l.length ⟨cap, l⟩ = (⟨cap, []⟩, l) := by
  induction l with
  | nil => rfl
  | cons f rest ih => simp [drainSteps, tryPop, ih]

/-!
## Claim theorems
-/

/-- Claim C1: for every frame buffer `x` (of 16-bit PCM samples, the fixed
lossless policy), applying `compressAudio` and then `decompressAudio`
reconstructs `x` exactly. -/
theorem audio_compression_roundtrip (x : List Nat) (hx : ∀ s ∈ x, s < 65536) :
    decompressAudio (compressAudio x) = Except.ok x := by
  induction x with
  | nil => rfl
  | cons s rest ih =>
    have hs : s < 65536 := hx s (by simp)
    have hrest : ∀ t ∈ rest, t < 65536 := fun t ht => hx t (by simp [ht])
    have h1 : s % 256 < 256 := Nat.mod_lt _ (by norm_num)
    have h2 : (s / 256) % 256 < 256 := Nat.mod_lt _ (by norm_num)
    have hd : s / 256 < 256 := by omega
    simp [compressAudio, decompressAudio, h1, h2, ih hrest, Except.map,
      Nat.mod_eq_of_lt hd, Nat.mod_add_div]
    all_goals omega

/-- Witness for claim C1 at the concrete buffer `[0, 300, 65535]`. -/
theorem audio_compression_roundtrip_witness :
    (∀ s ∈ [0, 300, 65535], s < 65536) ∧
      decompressAudio (compressAudio [0, 300, 65535]) =
        Except.ok [0, 300, 65535] :=
  ⟨by decide, audio_compression_roundtrip [0, 300, 65535] (by decide)⟩

/-- Claim C2: every invocation of `onAudioReady` completes normally — no
error propagates synchronously to the caller; the only observable outcome
handed to the driver is the returned value. -/
theorem onAudioReady_no_sync_error (s : Nat) (d : RawBuffer) (n : Nat)
    (r : Relay) :
    ∃ out, onAudioReady s d n r = Except.ok out :=
  ⟨_, rfl⟩

/-- Claim C3: the callback's only action besides returning the signal is to
push the incoming buffer into the relay and signal the worker; the only
state it touches is the relay, changed exactly by `tryPush`. -/
theorem onAudioReady_only_relay_actions (s : Nat) (d : RawBuffer) (n : Nat)
    (r : Relay) :
    onAudioReady s d n r =
      Except.ok ((tryPush r (castFloat d)).1,
        [⟨castFloat d, n⟩],
        [Action.pushFrame (castFloat d) (tryPush r (castFloat d)).2,
         Action.signalWorker],
        DataCallbackResult.Continue) :=
  rfl

/-- Claim C4: over every sequence of `tryPush`/`tryPop` operations, the
frames already popped followed by the frames still queued equal, in order,
exactly the frames accepted by `tryPush` (FIFO, no accepted item lost), and
`tryPush` rejects a frame exactly when the relay is at capacity. -/
theorem relay_fifo_no_loss (cap : Nat) (ops : List RelayOp) :
    (run cap ops).popped ++ (run cap ops).relay.buf = (run cap ops).accepted ∧
      ∀ r f, (tryPush r f).2 = false ↔ r.capacity ≤ r.buf.length := by
  constructor
  · exact foldl_preserves_queue_eq ops (initState cap) rfl
  · intro r f
    by_cases h : r.buf.length < r.capacity
    · simp [tryPush_of_lt r f h]
      omega
    · simp [tryPush_of_ge r f h]
      omega

/-- Claim C5: `decompressAudio` fails with a `DecodeError` exactly when its
input is truncated (odd byte count) or malformed (a non-byte value), and the
real-time callback never surfaces such an error. -/
theorem decompress_fails_iff_malformed :
    (∀ b : List Nat,
        (∃ e, decompressAudio b = Except.error e) ↔
          (b.length % 2 = 1 ∨ ∃ x ∈ b, 256 ≤ x)) ∧
      ∀ (s : Nat) (d : RawBuffer) (n : Nat) (r : Relay) (e : DecodeError),
        onAudioReady s d n r ≠ Except.error e := by
  constructor
  · exact decompress_error_iff
  · intro s d n r e h
    simp [onAudioReady] at h

/-- Claim C6: in every interleaving of driver pushes and worker pops, the
frames popped by the worker are a prefix of the accepted frames and appear
in exactly the order the driver delivered them (an order-preserving
subsequence of the delivered sequence). -/
theorem worker_order_matches_delivery (cap : Nat) (ops : List RelayOp) :
    (∃ t, (run cap ops).popped ++ t = (run cap ops).accepted) ∧
      List.Sublist (run cap ops).accepted (delivered ops) ∧
      List.Sublist (run cap ops).popped (delivered ops) := by
  have hq : (run cap ops).popped ++ (run cap ops).relay.buf =
      (run cap ops).accepted := foldl_preserves_queue_eq ops (initState cap) rfl
  have hs : List.Sublist (run cap ops).accepted (delivered ops) := by
    have hfold := foldl_accepted_sublist ops (initState cap)
    simpa [initState, run] using hfold
  refine ⟨⟨(run cap ops).relay.buf, hq⟩, hs, ?_⟩
  have hp : List.Sublist (run cap ops).popped (run cap ops).accepted := by
    rw [← hq]
    exact List.sublist_append_left _ _
  exact hp.trans hs

/-- Claim C7: `tryPush` is total and returns `true` exactly when the relay
was below capacity, and `tryPop` is total and returns the oldest queued
buffer when the relay is non-empty and `none` exactly when it is empty. -/
theorem relay_operations_total (r : Relay) (f : List Nat) :
    (tryPush r f).2 = decide (r.buf.length < r.capacity) ∧
      (tryPop r).2 = r.buf.head? ∧
      ((tryPop r).2 = none ↔ r.buf = []) := by
  refine ⟨?_, ?_, ?_⟩
  · by_cases h : r.buf.length < r.capacity
    · simp [tryPush_of_lt r f h, h]
    · simp [tryPush_of_ge r f h, h]
  · cases hb : r.buf <;> simp [tryPop, hb]
  · cases hb : r.buf <;> simp [tryPop, hb]

/-- Claim C8: stopping a stream with `N` frames in flight delivers exactly
those `N` frames, in order, to the worker and empties the relay — a
deterministic outcome fixed by the drain policy. -/
theorem stop_stream_drains_deterministically (r : Relay) :
    (stopStream r).2 = r.buf ∧ (stopStream r).2.length = r.buf.length ∧
      (stopStream r).1.buf = [] := by
  obtain ⟨cap, l⟩ := r
  simp [stopStream, drainSteps_drains]

/-- Claim C9: for every stream handle, buffer and frame count,
`onAudioReady` returns `DataCallbackResult.Continue`; it never returns the
stop signal. -/
theorem onAudioReady_returns_continue (s : Nat) (d : RawBuffer) (n : Nat)
    (r : Relay) :
    ∃ r2 calls acts, onAudioReady s d n r =
      Except.ok (r2, calls, acts, DataCallbackResult.Continue) :=
  ⟨_, _, _, rfl⟩

/-- Claim C10: every invocation of `onAudioReady` makes exactly one call to
`processAudio`, passing the buffer reinterpreted through the `float*` cast
and the frame count unchanged, and the stream argument has no effect on the
outcome. -/
theorem onAudioReady_single_call_stream_irrelevant (s s2 : Nat)
    (d : RawBuffer) (n : Nat) (r : Relay) :
    (∃ r2 acts res, onAudioReady s d n r =
        Except.ok (r2, [⟨castFloat d, n⟩], acts, res)) ∧
      onAudioReady s d n r = onAudioReady s2 d n r :=
  ⟨⟨_, _, _, rfl⟩, rfl⟩

end AudioProcessor
